import Mathlib

/-
  Verification of the JSONSlick formatter (src/JSONSlick.source.js).

  The development shallowly embeds the worker-side formatter
  (`workerFunction`), its parameter validator, and the caller-side
  request dispatcher (`useWorkerFunction`) as executable Lean
  definitions, and proves or refutes the frozen specification claims
  against them.

  Strings are modelled as `List Char`; JS numbers are modelled as
  exact rationals (adequate for the validator's integer/positivity
  checks in the range where JS `parseInt(number)` agrees with
  truncation toward zero); the single mutable scan state of the
  formatter is the structure `St`, and the character-indexed while
  loop is the fold `stateAt`/`runScan` over `List.range`.
-/

set_option autoImplicit false
set_option maxHeartbeats 1000000

namespace JSONSlick

/-! ## Characters used by the scanner -/

/-- The double-quote character `"`. -/
def dquote : Char := Char.ofNat 34

/-- The backslash character. -/
def bslash : Char := Char.ofNat 92

/-- The opening-brace character. -/
def lbrace : Char := Char.ofNat 123

/-- The closing-brace character. -/
def rbrace : Char := Char.ofNat 125

/-- The opening-bracket character. -/
def lbrack : Char := Char.ofNat 91

/-- The closing-bracket character. -/
def rbrack : Char := Char.ofNat 93

/-- The comma character. -/
def commaC : Char := Char.ofNat 44

/-- The colon character. -/
def colonC : Char := Char.ofNat 58

/-- The newline character. -/
def nlC : Char := Char.ofNat 10

/-- The space character. -/
def spaceC : Char := Char.ofNat 32

/-! ## Whitespace stripping

The source removes every whitespace character before scanning:
`json = json.replace( /\s/gm, "" )` (line 201).  `isWS` is the
character class of the JavaScript regex `\s`. -/

/-- Membership in the JavaScript `\s` character class. -/
def isWS (c : Char) : Bool :=
  c.toNat = 32 || c.toNat = 9 || c.toNat = 10 || c.toNat = 11 ||
  c.toNat = 12 || c.toNat = 13 || c.toNat = 0xA0 || c.toNat = 0x1680 ||
  (decide (0x2000 ≤ c.toNat) && decide (c.toNat ≤ 0x200A)) ||
  c.toNat = 0x2028 || c.toNat = 0x2029 || c.toNat = 0x202F ||
  c.toNat = 0x205F || c.toNat = 0x3000 || c.toNat = 0xFEFF

/-- `json.replace( /\s/gm, "" )`: drop every whitespace character. -/
def stripWS (l : List Char) : List Char := l.filter (fun c => !isWS c)

/-! ## Helper string operations of the source -/

/-- Index of the first occurrence of `c` in a list (JS `indexOf` from 0). -/
def idxFrom (c : Char) : List Char → Option Nat
  | [] => none
  | a :: rest => if a = c then some 0 else (idxFrom c rest).map (· + 1)

/-- JS `s.indexOf(c, i)`: absolute index of the first occurrence of `c`
at or after position `i`, if any. -/
def indexOfFrom (s : List Char) (c : Char) (i : Nat) : Option Nat :=
  (idxFrom c (s.drop i)).map (· + i)

/-- `json.substring( i, json.indexOf( "]", i ) )`: the substring the
source scans for non-code characters when an array opens at `i`.  When
`indexOf` returns `-1`, JS `substring(i, -1)` clamps `-1` to `0` and
swaps the bounds, yielding `substring(0, i)`. -/
def arrayScanChars (s : List Char) (i : Nat) : List Char :=
  match indexOfFrom s rbrack i with
  | some e => (s.drop i).take (e - i)
  | none => s.take i

/-- Whether the regex `/["[{]]/` of the source (line 204) matches the
list: the regex is a character class `["[{` followed by a literal `]`,
so it matches a quote, opening bracket, or opening brace that is
immediately followed by a closing bracket. -/
def nonCodeMatch : List Char → Bool
  | a :: b :: rest =>
    ((a = dquote || a = lbrack || a = lbrace) && b = rbrack) ||
      nonCodeMatch (b :: rest)
  | _ => false

/-- Does `pat` occur at the head of `l`? -/
def leadsWith : List Char → List Char → Bool
  | [], _ => true
  | _ :: _, [] => false
  | a :: pas, b :: bs => a = b && leadsWith pas bs

/-- Remove the first occurrence of the non-empty pattern `pat` from `l`
(identity when `pat` never occurs). -/
def removeFirstOcc (pat : List Char) : List Char → List Char
  | [] => []
  | c :: rest =>
    if leadsWith pat (c :: rest) then (c :: rest).drop pat.length
    else c :: removeFirstOcc pat rest

/-- JS `s.replace( pat, "" )` for string `pat`: removes the first
occurrence of `pat`; an empty pattern inserts nothing and leaves `s`
unchanged. -/
def jsReplaceEmpty (s pat : List Char) : List Char :=
  if pat = [] then s else removeFirstOcc pat s

/-! ## The scan state and the single-pass scanner -/

/-- The mutable locals of `workerFunction`'s scan loop
(src/JSONSlick.source.js lines 206-212): `inString`, `inCodeArray`,
`codeArrayDepth`, `escapeNextChar`, `tabDepth` (the indent ledger),
and the accumulated output `formattedJSON` (called `out` here). -/
structure St where
  inString : Bool
  inCodeArray : Bool
  codeArrayDepth : Nat
  escapeNextChar : Bool
  tabDepth : List Char
  out : List Char
deriving DecidableEq, Repr

/-- The state at loop entry. -/
def initSt : St := ⟨false, false, 0, false, [], []⟩

/-- One iteration of the while loop of `workerFunction`
(src/JSONSlick.source.js lines 214-324) at cursor `i` over the
stripped input `s`, with indent token `tab` and wrap width `w`
(the validated `codesLineLength`; the truthiness test
`codesLineLength && ch === "["` is `w ≠ 0`). -/
def chAt (s : List Char) (i : Nat) : Char := s.getD i spaceC

/-- `peek`: the next character, when the cursor is not at the last
position (`( i < json.length - 1 ) ? json.charAt( i + 1 ) : null`). -/
def peekAt (s : List Char) (i : Nat) : Option Char :=
  if i + 1 < s.length then some (s.getD (i + 1) spaceC) else none

/-- `recall`: the previous character, when the cursor is not at the
first position. -/
def prevAt (s : List Char) (i : Nat) : Option Char :=
  if 0 < i then some (s.getD (i - 1) spaceC) else none

def step (s tab : List Char) (w : Nat) (i : Nat) (st : St) : St :=
  let ch := chAt s i
  let peek : Option Char := peekAt s i
  let prevCh : Option Char := prevAt s i
  if st.inString = false then
    if ch = dquote then
      { st with inString := true, out := st.out ++ [ch] }
    else if ch = lbrace ∨ ch = lbrack then
      if peek = some rbrace ∨ peek = some rbrack then
        { st with out := st.out ++ [ch] }
      else
        let td := st.tabDepth ++ tab
        let st1 : St :=
          { st with tabDepth := td, out := st.out ++ [ch] ++ [nlC] ++ td }
        if w ≠ 0 ∧ ch = lbrack then
          if nonCodeMatch (arrayScanChars s i) = false then
            { st1 with inCodeArray := true }
          else st1
        else st1
    else if ch = commaC then
      if st.inCodeArray = true then
        if st.codeArrayDepth + 1 = w then
          { st with codeArrayDepth := 0,
                    out := st.out ++ [ch] ++ [nlC] ++ st.tabDepth }
        else
          { st with codeArrayDepth := st.codeArrayDepth + 1,
                    out := st.out ++ [ch] ++ tab }
      else
        { st with out := st.out ++ [ch] ++ [nlC] ++ st.tabDepth }
    else if ch = colonC then
      { st with out := st.out ++ [ch] ++ tab }
    else if ch = rbrace ∨ ch = rbrack then
      if prevCh = some lbrace ∨ prevCh = some lbrack then
        { st with out := st.out ++ [ch] }
      else
        let td := jsReplaceEmpty st.tabDepth tab
        let st1 : St :=
          { st with tabDepth := td, out := st.out ++ [nlC] ++ td ++ [ch] }
        if st.inCodeArray = true ∧ ch = rbrack then
          { st1 with inCodeArray := false }
        else st1
    else
      { st with out := st.out ++ [ch] }
  else
    if st.escapeNextChar = false ∧ ch = bslash then
      { st with escapeNextChar := true, out := st.out ++ [ch] }
    else if st.escapeNextChar = true ∧ ch = bslash then
      { st with escapeNextChar := false, out := st.out ++ [ch] }
    else if st.escapeNextChar = false ∧ ch = dquote then
      { st with inString := false, out := st.out ++ [ch] }
    else
      { st with out := st.out ++ [ch] }

/-- The scan state after the first `i` iterations of the loop: the
while loop visits cursors `0, 1, ..., s.length - 1` in order, so the
state after `i` iterations is a fold over `List.range i`. -/
def stateAt (s tab : List Char) (w : Nat) (i : Nat) : St :=
  (List.range i).foldl (fun st j => step s tab w j st) initSt

/-- The final state of the whole scan of the (already stripped) text. -/
def runScan (s tab : List Char) (w : Nat) : St := stateAt s tab w s.length

/-- The formatter: strip all whitespace, scan, return the accumulated
output (src/JSONSlick.source.js lines 201, 214-327). -/
def format (json tab : List Char) (w : Nat) : List Char :=
  (runScan (stripWS json) tab w).out

/-! ## The parameter validator (`workerFunction`, lines 138-198)

JavaScript values reaching the worker are modelled by `JSVal`.
Numbers are exact rationals, with `parseInt` on a number modelled as
truncation toward zero (its behaviour for every number whose decimal
rendering is plain positional notation). -/

/-- A JavaScript argument value, as far as the validator can
distinguish them: `undef` is `undefined`, and `objv` stands for any
value whose `typeof` is "object". -/
inductive JSVal where
  | undef
  | str (s : List Char)
  | num (q : Rat)
  | boolv (b : Bool)
  | objv
deriving DecidableEq, Repr

/-- The JS `typeof` operator on a `JSVal`. -/
def jsTypeof : JSVal → String
  | .undef => "undefined"
  | .str _ => "string"
  | .num _ => "number"
  | .boolv _ => "boolean"
  | .objv => "object"

/-- Is the value a string? -/
def isStringV : JSVal → Bool
  | .str _ => true
  | _ => false

/-- Is the value a number? -/
def isNumberV : JSVal → Bool
  | .num _ => true
  | _ => false

/-- The string payload of a string value. -/
def strOf : JSVal → List Char
  | .str s => s
  | _ => []

/-- The numeric payload of a number value. -/
def numOf : JSVal → Rat
  | .num q => q
  | _ => 0

/-- JS `parseInt` applied to a number: truncation toward zero. -/
def jsParseInt (q : Rat) : Rat :=
  if 0 ≤ q then (q.floor : Rat) else (q.ceil : Rat)

/-- The validated wrap width as a natural number. -/
def natOf : JSVal → Nat
  | .num q => q.floor.toNat
  | _ => 0

/-- Destructuring default (`tab = " "`, `codesLineLength = 1`): the
default applies exactly when the supplied value is `undefined`. -/
def orDefault (v d : JSVal) : JSVal :=
  if v = JSVal.undef then d else v

/-- The single message the worker posts back: a success carrying the
formatted text, or a failure carrying a human-readable message and an
error-kind tag. -/
inductive Posted where
  | success (result : List Char)
  | failure (result : String) (error : String)
deriving DecidableEq, Repr

/-- Shared first line of every validator error message. -/
def msgHead : String :=
  "Error calling formatJSON( json:string, tab:unset|string, codesLineLength:unset|(int>0) )\n"

/-- The `json` type-error message, parameterised by the reported type. -/
def msgJson (t : String) : String :=
  msgHead ++ "json:string was of type <" ++ t ++
    "> but was expected to be of type <string>."

/-- The `tab` type-error message. -/
def msgTab (t : String) : String :=
  msgHead ++ "tab:unset|string was of type <" ++ t ++
    "> but was expected to be of type <unset> or of type <string>."

/-- The `codesLineLength` type-error message, parameterised by the
reported type tag (`typeof`, `"float"`, or `"(int<=0)"`). -/
def msgCll (t : String) : String :=
  msgHead ++ "codesLineLength:unset|(int>0) was of type <" ++ t ++
    "> but was expected to be of type <unset> or of type <(int>0)>."

/-- The worker-side handler (src/JSONSlick.source.js lines 137-328):
destructure the posted argument list with defaults, run the five
validation checks in order, and on success post the formatted text.
Each `self.postMessage` + `return` of the source is one branch. -/
def workerFunction (data : List JSVal) : Posted :=
  let json := data.getD 0 JSVal.undef
  let tab := orDefault (data.getD 1 JSVal.undef) (JSVal.str [spaceC])
  let cll := orDefault (data.getD 2 JSVal.undef) (JSVal.num 1)
  if data.length = 0 then
    Posted.failure (msgJson "unset") "Type Error"
  else if isStringV json = false then
    Posted.failure (msgJson (jsTypeof json)) "Type Error"
  else if 2 ≤ data.length ∧ isStringV tab = false then
    Posted.failure (msgTab (jsTypeof tab)) "Type Error"
  else if 3 ≤ data.length ∧ isNumberV cll = false then
    Posted.failure (msgCll (jsTypeof cll)) "Type Error"
  else if 3 ≤ data.length ∧ isNumberV cll = true ∧
      jsParseInt (numOf cll) ≠ numOf cll then
    Posted.failure (msgCll "float") "Type Error"
  else if 3 ≤ data.length ∧ isNumberV cll = true ∧
      jsParseInt (numOf cll) = numOf cll ∧ numOf cll ≤ 0 then
    Posted.failure (msgCll "(int<=0)") "Type Error"
  else
    Posted.success (format (strOf json) (strOf tab) (natOf cll))

/-! ## The request dispatcher (`useWorkerFunction`, lines 359-377)

Each call overwrites the single mutable `worker.onmessage` slot with a
handler settling that call's promise, then posts its request.  The
worker itself processes posted requests strictly in arrival order and
posts exactly one response per request; a response fires whatever
handler is installed at delivery time, and a promise settles only
once.  `DState` is the joint state, `dStep` the two observable
events. -/

/-- Dispatcher state: the currently installed `onmessage` handler
(the id of the call that installed it), the queue of posted,
not-yet-answered requests in arrival order, and which request's
response settled each call's promise. -/
structure DState where
  handler : Option Nat
  queue : List Nat
  settled : List (Nat × Nat)
deriving DecidableEq, Repr

/-- An observable event: a caller invokes the dispatcher (installing
its handler and posting its request), or the worker finishes the
oldest pending request and its response is delivered to the currently
installed handler (settling that handler's promise unless it is
already settled). -/
inductive DEvent where
  | call (id : Nat)
  | respond
deriving DecidableEq, Repr

/-- First settlement recorded for a call id, if any. -/
def dLookup (a : Nat) : List (Nat × Nat) → Option Nat
  | [] => none
  | (k, v) :: rest => if a = k then some v else dLookup a rest

/-- One event of the dispatcher model. -/
def dStep (st : DState) : DEvent → DState
  | .call id => { st with handler := some id, queue := st.queue ++ [id] }
  | .respond =>
    match st.queue with
    | [] => st
    | r :: rest =>
      match st.handler with
      | none => { st with queue := rest }
      | some h =>
        if (dLookup h st.settled).isSome then { st with queue := rest }
        else { st with queue := rest, settled := st.settled ++ [(h, r)] }

/-- Run the dispatcher from its initial state over a trace of events. -/
def dRun (evs : List DEvent) : DState :=
  evs.foldl dStep ⟨none, [], []⟩

/-- A trace of strictly sequential (non-overlapping) calls: each call
is posted and its response delivered before the next call starts. -/
def seqCalls : List Nat → List DEvent
  | [] => []
  | id :: rest => DEvent.call id :: DEvent.respond :: seqCalls rest

/-! ## Lemmas about the dispatcher model -/

theorem dLookup_append_of_none (a : Nat) (l1 l2 : List (Nat × Nat))
    (h : dLookup a l1 = none) : dLookup a (l1 ++ l2) = dLookup a l2 := by
  induction l1 with
  | nil => rfl
  | cons p rest ih =>
    obtain ⟨k, v⟩ := p
    by_cases hak : a = k
    · simp [dLookup, hak] at h
    · simp only [dLookup, if_neg hak] at h
      simp only [List.cons_append, dLookup, if_neg hak]
      exact ih h

theorem dLookup_append_of_some (a v : Nat) (l1 l2 : List (Nat × Nat))
    (h : dLookup a l1 = some v) : dLookup a (l1 ++ l2) = some v := by
  induction l1 with
  | nil => simp [dLookup] at h
  | cons p rest ih =>
    obtain ⟨k, b⟩ := p
    by_cases hak : a = k
    · simp only [dLookup, if_pos hak] at h
      simp only [List.cons_append, dLookup, if_pos hak]
      exact h
    · simp only [dLookup, if_neg hak] at h
      simp only [List.cons_append, dLookup, if_neg hak]
      exact ih h

/-- Settlements are only ever appended. -/
theorem dStep_settled_mono (st : DState) (ev : DEvent) :
    ∃ l, (dStep st ev).settled = st.settled ++ l := by
  cases ev with
  | call id => exact ⟨[], by simp [dStep]⟩
  | respond =>
    cases hq : st.queue with
    | nil => exact ⟨[], by simp [dStep, hq]⟩
    | cons r rest =>
      cases hh : st.handler with
      | none => exact ⟨[], by simp [dStep, hq, hh]⟩
      | some h =>
        by_cases hs : (dLookup h st.settled).isSome
        · exact ⟨[], by simp [dStep, hq, hh, hs]⟩
        · exact ⟨[(h, r)], by simp [dStep, hq, hh, hs]⟩

theorem foldl_dStep_settled_mono (evs : List DEvent) (st : DState) :
    ∃ l, (evs.foldl dStep st).settled = st.settled ++ l := by
  induction evs generalizing st with
  | nil => exact ⟨[], by simp⟩
  | cons ev rest ih =>
    obtain ⟨l1, h1⟩ := dStep_settled_mono st ev
    obtain ⟨l2, h2⟩ := ih (dStep st ev)
    exact ⟨l1 ++ l2, by rw [List.foldl_cons, h2, h1, List.append_assoc]⟩

/-- Strictly sequential calls with distinct ids are each settled with
their own response. -/
theorem seq_correct : ∀ (ids : List Nat) (st : DState), st.queue = [] →
    ids.Nodup → (∀ j ∈ ids, dLookup j st.settled = none) →
    ∀ i ∈ ids, dLookup i ((seqCalls ids).foldl dStep st).settled = some i := by
  intro ids
  induction ids with
  | nil => intro st _ _ _ i hi; cases hi
  | cons id rest ih =>
    intro st hq hnd hfresh i hi
    have hfid : dLookup id st.settled = none := hfresh id (by simp)
    have hstep : dStep (dStep st (DEvent.call id)) DEvent.respond =
        { st with handler := some id, queue := [],
                  settled := st.settled ++ [(id, id)] } := by
      show dStep { st with handler := some id, queue := st.queue ++ [id] }
          DEvent.respond = _
      rw [hq]
      simp [dStep, hfid]
    have hfold : (seqCalls (id :: rest)).foldl dStep st =
        (seqCalls rest).foldl dStep
          { st with handler := some id, queue := [],
                    settled := st.settled ++ [(id, id)] } := by
      show (DEvent.call id :: DEvent.respond :: seqCalls rest).foldl dStep st = _
      rw [List.foldl_cons, List.foldl_cons, hstep]
    rw [hfold]
    rcases List.mem_cons.mp hi with hid | hmem
    · subst hid
      obtain ⟨l, hl⟩ := foldl_dStep_settled_mono (seqCalls rest)
        { st with handler := some i, queue := [],
                  settled := st.settled ++ [(i, i)] }
      rw [hl]
      show dLookup i ((st.settled ++ [(i, i)]) ++ l) = some i
      rw [List.append_assoc]
      rw [dLookup_append_of_none i st.settled _ hfid]
      simp [dLookup]
    · have hninr : id ∉ rest := (List.nodup_cons.mp hnd).1
      have hnu : rest.Nodup := (List.nodup_cons.mp hnd).2
      refine ih _ rfl hnu ?_ i hmem
      intro j hj
      show dLookup j (st.settled ++ [(id, id)]) = none
      rw [dLookup_append_of_none j st.settled _
        (hfresh j (List.mem_cons_of_mem _ hj))]
      have hji : j ≠ id := fun h => hninr (h ▸ hj)
      simp [dLookup, hji]

theorem stateAt_succ (s tab : List Char) (w i : Nat) :
    stateAt s tab w (i + 1) = step s tab w i (stateAt s tab w i) := by
  simp [stateAt, List.range_succ]

/-- The indent ledger built by `k` nested containers: `k` copies of
`tab`. -/
def repeatL (tab : List Char) : Nat → List Char
  | 0 => []
  | k + 1 => tab ++ repeatL tab k

theorem repeatL_nil : ∀ k, repeatL ([] : List Char) k = []
  | 0 => rfl
  | k + 1 => by simp only [repeatL, List.nil_append]; exact repeatL_nil k

theorem repeatL_succ_right (tab : List Char) (k : Nat) :
    repeatL tab (k + 1) = repeatL tab k ++ tab := by
  induction k with
  | zero => simp [repeatL]
  | succ n ih =>
    show tab ++ repeatL tab (n + 1) = (tab ++ repeatL tab n) ++ tab
    rw [ih, List.append_assoc]

theorem leadsWith_append (p r : List Char) : leadsWith p (p ++ r) = true := by
  induction p with
  | nil => rfl
  | cons a pas ih => simp [leadsWith, ih]

theorem removeFirstOcc_append_self (pat r : List Char) (h : pat ≠ []) :
    removeFirstOcc pat (pat ++ r) = r := by
  match pat, h with
  | c :: pas, _ =>
    show removeFirstOcc (c :: pas) (c :: (pas ++ r)) = r
    rw [removeFirstOcc]
    have hl : leadsWith (c :: pas) (c :: (pas ++ r)) = true := by
      have := leadsWith_append (c :: pas) r
      simpa using this
    rw [if_pos hl]
    show ((c :: pas) ++ r).drop (c :: pas).length = r
    exact List.drop_left _ _

/-- Dedenting the ledger of `k` stacked tabs removes exactly one tab:
`tabDepth.replace( tab, "" )` on `tab^k` yields `tab^(k-1)`. -/
theorem jsReplaceEmpty_repeat (tab : List Char) (k : Nat) :
    jsReplaceEmpty (repeatL tab k) tab = repeatL tab (k - 1) := by
  by_cases h : tab = []
  · subst h; simp [jsReplaceEmpty, repeatL_nil]
  · cases k with
    | zero => simp [jsReplaceEmpty, h, repeatL, removeFirstOcc]
    | succ n =>
      simp only [jsReplaceEmpty, if_neg h, repeatL, Nat.add_sub_cancel]
      exact removeFirstOcc_append_self tab _ h

/-- Every loop iteration leaves the ledger unchanged, appends one
`tab`, or removes the first occurrence of `tab`. -/
theorem step_tabDepth (s tab : List Char) (w i : Nat) (st : St) :
    (step s tab w i st).tabDepth = st.tabDepth ∨
    (step s tab w i st).tabDepth = st.tabDepth ++ tab ∨
    (step s tab w i st).tabDepth = jsReplaceEmpty st.tabDepth tab := by
  simp only [step]
  split_ifs <;> simp

/-- At every step of every scan, the indent ledger is a whole-number
repetition of `tab`. -/
theorem tabDepth_repeat (s tab : List Char) (w i : Nat) :
    ∃ k, (stateAt s tab w i).tabDepth = repeatL tab k := by
  induction i with
  | zero => exact ⟨0, rfl⟩
  | succ n ih =>
    obtain ⟨k, hk⟩ := ih
    rw [stateAt_succ]
    rcases step_tabDepth s tab w n (stateAt s tab w n) with h | h | h
    · exact ⟨k, by rw [h, hk]⟩
    · exact ⟨k + 1, by rw [h, hk, repeatL_succ_right]⟩
    · exact ⟨k - 1, by rw [h, hk, jsReplaceEmpty_repeat]⟩

/-- Iteration `i` opens a non-empty container: outside a string, the
character is an opening bracket and the next character does not close
it. -/
def isOpenNonEmpty (s : List Char) (i : Nat) (st : St) : Prop :=
  st.inString = false ∧ (chAt s i = lbrace ∨ chAt s i = lbrack) ∧
    ¬(peekAt s i = some rbrace ∨ peekAt s i = some rbrack)

/-- Iteration `i` closes a non-empty container: outside a string, the
character is a closing bracket and the previous character did not just
open it. -/
def isCloseNonEmpty (s : List Char) (i : Nat) (st : St) : Prop :=
  st.inString = false ∧ (chAt s i = rbrace ∨ chAt s i = rbrack) ∧
    ¬(prevAt s i = some lbrace ∨ prevAt s i = some lbrack)

theorem step_open_tabDepth (s tab : List Char) (w i : Nat) (st : St)
    (h : isOpenNonEmpty s i st) :
    (step s tab w i st).tabDepth = st.tabDepth ++ tab := by
  obtain ⟨h1, h2, h3⟩ := h
  rcases h2 with h2 | h2 <;>
    simp +decide [step, h1, h2, h3, apply_ite St.tabDepth]

theorem step_close_tabDepth (s tab : List Char) (w i : Nat) (st : St)
    (h : isCloseNonEmpty s i st) :
    (step s tab w i st).tabDepth = jsReplaceEmpty st.tabDepth tab := by
  obtain ⟨h1, h2, h3⟩ := h
  rcases h2 with h2 | h2 <;>
    simp +decide [step, h1, h2, h3, apply_ite St.tabDepth]

/-! ## Whitespace accounting: the scan emits every input character
exactly once, interleaved with inserted whitespace (for
whitespace-only `tab`) -/

theorem stripWS_append (a b : List Char) :
    stripWS (a ++ b) = stripWS a ++ stripWS b := by
  simp [stripWS]

theorem stripWS_all_ws (l : List Char) (h : ∀ c ∈ l, isWS c = true) :
    stripWS l = [] := by
  refine List.filter_eq_nil_iff.mpr ?_
  intro c hc
  simp [h c hc]

theorem stripWS_single (c : Char) (h : isWS c = false) :
    stripWS [c] = [c] := by
  simp [stripWS, h]

theorem stripWS_nil : stripWS [] = [] := rfl

theorem stripWS_cons_ws (c : Char) (l : List Char) (h : isWS c = true) :
    stripWS (c :: l) = stripWS l := by
  simp [stripWS, h]

theorem stripWS_cons_not_ws (c : Char) (l : List Char) (h : isWS c = false) :
    stripWS (c :: l) = c :: stripWS l := by
  simp [stripWS, h]

theorem removeFirstOcc_subset (pat : List Char) :
    ∀ l c, c ∈ removeFirstOcc pat l → c ∈ l := by
  intro l
  induction l with
  | nil => intro c hc; simp [removeFirstOcc] at hc
  | cons a rest ih =>
    intro c hc
    rw [removeFirstOcc] at hc
    by_cases hl : leadsWith pat (a :: rest) = true
    · rw [if_pos hl] at hc
      exact List.mem_of_mem_drop hc
    · rw [if_neg hl] at hc
      rcases List.mem_cons.mp hc with h | h
      · exact h ▸ List.mem_cons_self a rest
      · exact List.mem_cons_of_mem a (ih c h)

theorem jsReplaceEmpty_ws (l pat : List Char) (h : ∀ c ∈ l, isWS c = true) :
    ∀ c ∈ jsReplaceEmpty l pat, isWS c = true := by
  intro c hc
  unfold jsReplaceEmpty at hc
  by_cases hp : pat = []
  · rw [if_pos hp] at hc; exact h c hc
  · rw [if_neg hp] at hc; exact h c (removeFirstOcc_subset pat l c hc)

/-- Each iteration appends the current input character exactly once to
the output, surrounded only by whitespace, provided `tab` and the
current ledger are whitespace-only; and the ledger stays
whitespace-only. -/
theorem step_out_strip (s tab : List Char) (w i : Nat) (st : St)
    (hch : isWS (chAt s i) = false)
    (htab : ∀ c ∈ tab, isWS c = true)
    (htd : ∀ c ∈ st.tabDepth, isWS c = true) :
    stripWS (step s tab w i st).out = stripWS st.out ++ [chAt s i] ∧
      ∀ c ∈ (step s tab w i st).tabDepth, isWS c = true := by
  have hnl : stripWS [nlC] = [] := by decide
  have hchs : stripWS [chAt s i] = [chAt s i] := stripWS_single _ hch
  have htabs : stripWS tab = [] := stripWS_all_ws tab htab
  have htds : stripWS st.tabDepth = [] := stripWS_all_ws _ htd
  have htdtab : ∀ c ∈ st.tabDepth ++ tab, isWS c = true := by
    intro c hc
    rcases List.mem_append.mp hc with h | h
    · exact htd c h
    · exact htab c h
  have htdtabs : stripWS (st.tabDepth ++ tab) = [] := stripWS_all_ws _ htdtab
  have hrepws : ∀ c ∈ jsReplaceEmpty st.tabDepth tab, isWS c = true :=
    jsReplaceEmpty_ws _ _ htd
  have hreps : stripWS (jsReplaceEmpty st.tabDepth tab) = [] :=
    stripWS_all_ws _ hrepws
  have hnlw : isWS nlC = true := by decide
  simp only [step]
  split_ifs <;>
    exact ⟨by simp [stripWS_append, stripWS_cons_ws, stripWS_cons_not_ws,
        stripWS_nil, hch, hnlw, hchs, htabs, htds, htdtabs, hnl, hreps],
      by first
        | exact htd
        | exact htdtab
        | exact hrepws⟩

/-- After `i` iterations on whitespace-free input with whitespace-only
`tab`, stripping the output recovers exactly the first `i` input
characters. -/
theorem stateAt_out_strip (s tab : List Char) (w : Nat)
    (hs : ∀ c ∈ s, isWS c = false) (htab : ∀ c ∈ tab, isWS c = true) :
    ∀ i, i ≤ s.length →
      stripWS (stateAt s tab w i).out = s.take i ∧
        ∀ c ∈ (stateAt s tab w i).tabDepth, isWS c = true := by
  intro i
  induction i with
  | zero => intro _; exact ⟨rfl, fun c hc => by cases hc⟩
  | succ n ihn =>
    intro hn
    have hlt : n < s.length := Nat.lt_of_succ_le hn
    obtain ⟨h1, h2⟩ := ihn (Nat.le_of_lt hlt)
    have hchmem : chAt s n ∈ s := by
      rw [chAt, List.getD_eq_getElem _ _ hlt]
      exact List.getElem_mem hlt
    have hch : isWS (chAt s n) = false := hs _ hchmem
    obtain ⟨ho, htdn⟩ := step_out_strip s tab w n _ hch htab h2
    rw [stateAt_succ]
    refine ⟨?_, htdn⟩
    have hgd : chAt s n = s[n] := List.getD_eq_getElem _ _ hlt
    rw [ho, h1, hgd, List.take_succ, List.getElem?_eq_getElem hlt]
    rfl

/-- Stripping the scan's output of whitespace-free input (with
whitespace-only `tab`) recovers the input. -/
theorem stripWS_runScan (s tab : List Char) (w : Nat)
    (hs : ∀ c ∈ s, isWS c = false) (htab : ∀ c ∈ tab, isWS c = true) :
    stripWS (runScan s tab w).out = s := by
  have h := (stateAt_out_strip s tab w hs htab s.length (Nat.le_refl _)).1
  simpa [runScan, List.take_length] using h

/-! ## Scanning a pure-numeric array body -/

/-- Run `m` consecutive iterations starting at cursor `p`. -/
def runFrom (s tab : List Char) (w : Nat) : Nat → Nat → St → St
  | _, 0, st => st
  | p, m + 1, st => runFrom s tab w (p + 1) m (step s tab w p st)

theorem runFrom_snoc (s tab : List Char) (w : Nat) :
    ∀ (m p : Nat) (st : St),
      runFrom s tab w p (m + 1) st =
        step s tab w (p + m) (runFrom s tab w p m st) := by
  intro m
  induction m with
  | zero => intro p st; simp [runFrom]
  | succ n ih =>
    intro p st
    show runFrom s tab w (p + 1) (n + 1) (step s tab w p st) = _
    rw [ih (p + 1) (step s tab w p st)]
    show step s tab w (p + 1 + n) _ = step s tab w (p + (n + 1)) _
    rw [Nat.add_right_comm p 1 n]
    show _ = step s tab w (p + n + 1) (runFrom s tab w (p + 1) n (step s tab w p st))
    rfl

theorem stateAt_add (s tab : List Char) (w : Nat) (p : Nat) :
    ∀ m, stateAt s tab w (p + m) = runFrom s tab w p m (stateAt s tab w p) := by
  intro m
  induction m with
  | zero => rfl
  | succ n ih =>
    show stateAt s tab w (p + n + 1) = _
    rw [stateAt_succ, ih, runFrom_snoc]

/-- A character a code array's element may consist of: neither
structural (quote, bracket, brace, comma, colon) nor whitespace. -/
def numericChar (c : Char) : Bool :=
  !(c = dquote || c = lbrace || c = lbrack || c = rbrace || c = rbrack ||
      c = commaC || c = colonC) && !isWS c

theorem numericChar_spec (c : Char) (h : numericChar c = true) :
    ¬c = dquote ∧ ¬c = lbrace ∧ ¬c = lbrack ∧ ¬c = rbrace ∧ ¬c = rbrack ∧
      ¬c = commaC ∧ ¬c = colonC ∧ isWS c = false := by
  simp only [numericChar, Bool.and_eq_true, Bool.not_eq_true',
    Bool.or_eq_false_iff, decide_eq_false_iff_not] at h
  tauto

theorem numericChar_ne_nl (c : Char) (h : numericChar c = true) : ¬c = nlC := by
  intro hc
  have hws := (numericChar_spec c h).2.2.2.2.2.2.2
  rw [hc] at hws
  have ht : isWS nlC = true := by decide
  rw [ht] at hws
  cases hws

/-- Outside strings, a non-structural character is emitted unchanged
and the rest of the state is untouched. -/
theorem step_numeric (s tab : List Char) (w i : Nat) (st : St)
    (h1 : st.inString = false) (hc : numericChar (chAt s i) = true) :
    step s tab w i st = { st with out := st.out ++ [chAt s i] } := by
  obtain ⟨n1, n2, n3, n4, n5, n6, n7, _⟩ := numericChar_spec _ hc
  simp [step, h1, n1, n2, n3, n4, n5, n6, n7]

/-- Outside strings, inside a code array, a comma either wraps
(counter reached `w`) or inserts one inline tab. -/
theorem step_comma_code (s tab : List Char) (w i : Nat) (st : St)
    (h1 : st.inString = false) (h2 : st.inCodeArray = true)
    (hc : chAt s i = commaC) :
    step s tab w i st =
      if st.codeArrayDepth + 1 = w then
        { st with codeArrayDepth := 0,
                  out := st.out ++ [chAt s i] ++ [nlC] ++ st.tabDepth }
      else
        { st with codeArrayDepth := st.codeArrayDepth + 1,
                  out := st.out ++ [chAt s i] ++ tab } := by
  simp +decide [step, h1, h2, hc]

theorem runFrom_succ (s tab : List Char) (w p m : Nat) (st : St) :
    runFrom s tab w p (m + 1) st =
      runFrom s tab w (p + 1) m (step s tab w p st) := rfl

/-- Newline bookkeeping of one whole code-array body: scanning a
segment of commas and numeric characters keeps the scanner outside
strings and inside the code array, leaves the ledger alone, drives the
element counter modulo `w`, and emits exactly one newline per `w`
commas. -/
theorem seg_scan (s tab : List Char) (w : Nat) (htabnl : tab.count nlC = 0) :
    ∀ (cs : List Char) (p : Nat) (st : St),
      (∀ j, j < cs.length → chAt s (p + j) = cs.getD j spaceC) →
      (∀ c ∈ cs, c = commaC ∨ numericChar c = true) →
      st.inString = false → st.inCodeArray = true →
      st.tabDepth.count nlC = 0 →
      st.codeArrayDepth < w →
      (runFrom s tab w p cs.length st).inString = false ∧
        (runFrom s tab w p cs.length st).inCodeArray = true ∧
        (runFrom s tab w p cs.length st).tabDepth = st.tabDepth ∧
        (runFrom s tab w p cs.length st).codeArrayDepth =
          (st.codeArrayDepth + cs.count commaC) % w ∧
        (runFrom s tab w p cs.length st).out.count nlC =
          st.out.count nlC + (st.codeArrayDepth + cs.count commaC) / w := by
  intro cs
  induction cs with
  | nil =>
    intro p st _ _ h1 h2 h3 hd
    refine ⟨h1, h2, rfl, ?_, ?_⟩
    · simp [runFrom, Nat.mod_eq_of_lt hd]
    · simp [runFrom, Nat.div_eq_of_lt hd]
  | cons c cs ih =>
    intro p st hpos hcls h1 h2 h3 hd
    have hw0 : 0 < w := Nat.lt_of_le_of_lt (Nat.zero_le _) hd
    have hc0 : chAt s p = c := by
      have h := hpos 0 (Nat.succ_pos _)
      simpa using h
    have hpos2 : ∀ j, j < cs.length → chAt s (p + 1 + j) = cs.getD j spaceC := by
      intro j hj
      have h := hpos (j + 1) (Nat.succ_lt_succ hj)
      have he : p + (j + 1) = p + 1 + j := by omega
      rw [he] at h
      simpa using h
    have hcls2 : ∀ x ∈ cs, x = commaC ∨ numericChar x = true :=
      fun x hx => hcls x (List.mem_cons_of_mem _ hx)
    simp only [List.length_cons, runFrom_succ]
    rcases hcls c (List.mem_cons_self _ _) with hcc | hcn
    · -- the character is a comma
      subst hcc
      rw [step_comma_code s tab w p st h1 h2 hc0]
      by_cases hwrap : st.codeArrayDepth + 1 = w
      · rw [if_pos hwrap]
        obtain ⟨g1, g2, g3, g4, g5⟩ := ih (p + 1)
          { st with codeArrayDepth := 0,
                    out := st.out ++ [chAt s p] ++ [nlC] ++ st.tabDepth }
          hpos2 hcls2 h1 h2 h3 hw0
        have hcnt : (st.out ++ [chAt s p] ++ [nlC] ++ st.tabDepth).count nlC =
            st.out.count nlC + 1 := by
          rw [hc0]
          simp +decide [List.count_append, List.count_cons, h3]
        have harith : st.codeArrayDepth + (cs.count commaC + 1) =
            cs.count commaC + w := by omega
        refine ⟨g1, g2, g3, ?_, ?_⟩
        · rw [g4]
          simp only [List.count_cons_self, harith, Nat.add_mod_right,
            Nat.zero_add]
        · rw [g5, hcnt]
          simp only [List.count_cons_self, harith, Nat.add_div_right _ hw0,
            Nat.zero_add]
          ring
      · rw [if_neg hwrap]
        have hdlt : st.codeArrayDepth + 1 < w := by omega
        obtain ⟨g1, g2, g3, g4, g5⟩ := ih (p + 1)
          { st with codeArrayDepth := st.codeArrayDepth + 1,
                    out := st.out ++ [chAt s p] ++ tab }
          hpos2 hcls2 h1 h2 h3 hdlt
        have hcnt : (st.out ++ [chAt s p] ++ tab).count nlC =
            st.out.count nlC := by
          rw [hc0]
          simp +decide [List.count_append, List.count_cons, htabnl]
        have harith : st.codeArrayDepth + 1 + cs.count commaC =
            st.codeArrayDepth + (cs.count commaC + 1) := by omega
        refine ⟨g1, g2, g3, ?_, ?_⟩
        · rw [g4]
          simp only [List.count_cons_self, harith]
        · rw [g5, hcnt]
          simp only [List.count_cons_self, harith]
    · -- the character is numeric
      rw [step_numeric s tab w p st h1 (hc0 ▸ hcn)]
      obtain ⟨g1, g2, g3, g4, g5⟩ := ih (p + 1)
        { st with out := st.out ++ [chAt s p] } hpos2 hcls2 h1 h2 h3 hd
      have hcne : ¬c = commaC := (numericChar_spec c hcn).2.2.2.2.2.1
      have hcnl : ¬c = nlC := numericChar_ne_nl c hcn
      have hcne2 : ¬commaC = c := fun hh => hcne hh.symm
      have hcnl2 : ¬nlC = c := fun hh => hcnl hh.symm
      have hcount1 : (c :: cs).count commaC = cs.count commaC := by
        simp [List.count_cons, beq_iff_eq, hcne2]
      have hcnt : (st.out ++ [chAt s p]).count nlC = st.out.count nlC := by
        rw [hc0]
        simp [List.count_append, List.count_cons, beq_iff_eq, hcnl2]
      refine ⟨g1, g2, g3, ?_, ?_⟩
      · rw [g4, hcount1]
      · rw [g5, hcnt, hcount1]

/-! ## The body of a pure-numeric array literal -/

/-- The compact text of an array body: elements joined by commas. -/
def joinSep : List (List Char) → List Char
  | [] => []
  | [e] => e
  | e :: e2 :: rest => e ++ commaC :: joinSep (e2 :: rest)

theorem joinSep_head (c0 : Char) (cs0 : List Char) (rest : List (List Char)) :
    ∃ tl, joinSep ((c0 :: cs0) :: rest) = c0 :: tl := by
  cases rest with
  | nil => exact ⟨cs0, rfl⟩
  | cons e2 r => exact ⟨cs0 ++ commaC :: joinSep (e2 :: r), rfl⟩

theorem joinSep_chars (elems : List (List Char))
    (h : ∀ e ∈ elems, ∀ c ∈ e, numericChar c = true) :
    ∀ c ∈ joinSep elems, c = commaC ∨ numericChar c = true := by
  induction elems with
  | nil => intro c hc; cases hc
  | cons e rest ih =>
    cases rest with
    | nil =>
      intro c hc
      exact Or.inr (h e (List.mem_cons_self _ _) c hc)
    | cons e2 r =>
      intro c hc
      simp only [joinSep] at hc
      rcases List.mem_append.mp hc with hm | hm
      · exact Or.inr (h e (List.mem_cons_self _ _) c hm)
      · rcases List.mem_cons.mp hm with hm2 | hm2
        · exact Or.inl hm2
        · exact ih (fun e2 he2 => h e2 (List.mem_cons_of_mem _ he2)) c hm2

theorem joinSep_count (elems : List (List Char))
    (h : ∀ e ∈ elems, ∀ c ∈ e, ¬c = commaC) :
    elems ≠ [] → (joinSep elems).count commaC = elems.length - 1 := by
  induction elems with
  | nil => intro hne; cases hne rfl
  | cons e rest ih =>
    intro _
    have hcnt : e.count commaC = 0 :=
      List.count_eq_zero.mpr
        (fun hm => h e (List.mem_cons_self _ _) commaC hm rfl)
    cases rest with
    | nil => simpa [joinSep] using hcnt
    | cons e2 r =>
      have hih := ih (fun x hx => h x (List.mem_cons_of_mem _ hx))
        (List.cons_ne_nil e2 r)
      simp only [joinSep, List.count_append, List.count_cons_self, hcnt, hih]
      simp [List.length_cons]

theorem getD_append_left (l2 : List Char) (d : Char) :
    ∀ (l1 : List Char) (j : Nat), j < l1.length →
      (l1 ++ l2).getD j d = l1.getD j d := by
  intro l1
  induction l1 with
  | nil => intro j hj; cases hj
  | cons a t ih =>
    intro j hj
    cases j with
    | zero => rfl
    | succ n =>
      show (t ++ l2).getD n d = t.getD n d
      exact ih n (Nat.lt_of_succ_lt_succ hj)

theorem getD_append_length (l2 : List Char) (d : Char) :
    ∀ l1 : List Char, (l1 ++ l2).getD l1.length d = l2.getD 0 d := by
  intro l1
  induction l1 with
  | nil => rfl
  | cons a t ih => exact ih

theorem idxFrom_append (c : Char) :
    ∀ (l1 l2 : List Char), c ∉ l1 →
      idxFrom c (l1 ++ c :: l2) = some l1.length := by
  intro l1
  induction l1 with
  | nil => intro l2 _; simp [idxFrom]
  | cons a t ih =>
    intro l2 h
    have ha : ¬a = c := fun hh => h (hh ▸ List.mem_cons_self a t)
    have ht := ih l2 (fun hm => h (List.mem_cons_of_mem a hm))
    simp [idxFrom, ha, ht]

theorem nonCodeMatch_no_rbrack : ∀ l : List Char,
    rbrack ∉ l → nonCodeMatch l = false := by
  intro l
  induction l with
  | nil => intro _; rfl
  | cons a t ih =>
    intro h
    cases t with
    | nil => rfl
    | cons b r =>
      have hb : ¬b = rbrack := fun hh =>
        h (hh ▸ List.mem_cons_of_mem a (List.mem_cons_self b r))
      have ht := ih (fun hm => h (List.mem_cons_of_mem a hm))
      simp only [nonCodeMatch] at ht ⊢
      simp [hb, ht]

theorem jsReplaceEmpty_self (tab : List Char) : jsReplaceEmpty tab tab = [] := by
  have h := jsReplaceEmpty_repeat tab 1
  simpa [repeatL] using h

theorem stripWS_id_of (l : List Char) (h : ∀ c ∈ l, isWS c = false) :
    stripWS l = l := by
  refine List.filter_eq_self.mpr ?_
  intro c hc
  simp [h c hc]

/-- `codesLineLength` left unset behaves exactly like `codesLineLength
= 1`, for every pair of first two arguments. -/
theorem worker_unset_cll (a b : JSVal) :
    workerFunction [a, b] = workerFunction [a, b, JSVal.num 1] := by
  simp +decide [workerFunction, orDefault, natOf, jsParseInt, numOf,
    isNumberV, Rat.floor]

/-! ## Claim theorems: concrete refutations -/

/-- C1: the claim that an array containing a string is never treated
as a code array is FALSE of the code.  The pre-scan regex `/["[{]]/`
only matches a quote or opening bracket that is immediately followed
by `]`, and the scanned substring stops before the first `]`, so the
scan never matches and every non-empty array is marked as a code
array.  Here the string-containing array `["a","b","c"]` at wrap
width 2 receives code-array treatment: the first comma is followed by
inline tab spacing instead of a newline plus the indent ledger. -/
theorem c1_code_array_misclassification :
    format ("[\"a\",\"b\",\"c\"]".toList) [spaceC] 2 =
      "[\n \"a\", \"b\",\n \"c\"\n]".toList := by decide

/-- C2: the claim that the escape flag is a one-character window and
that formatting resumes after every string literal is FALSE of the
code.  Scanning `"\n` leaves `escapeNextChar = true` even though the
character after the backslash has already been consumed (only another
backslash ever clears the flag), and consequently the closing quote
of the well-formed literal `"\n"` is treated as escaped, so the scan
ends still inside string mode. -/
theorem c2_escape_flag_sticky :
    (runScan ("\"\\n".toList) [spaceC] 1).escapeNextChar = true ∧
      (runScan ("\"\\n\"".toList) [spaceC] 1).inString = true := by decide

/-- C3: the claim that every output line is preceded by indent units
equal to its structural nesting depth is FALSE of the code.  For the
well-formed input `{"a":"\n","b":1}` the sticky escape flag swallows
the rest of the text after the escape, so the top-level closing brace
(structural depth 0) ends up on the line that begins with one indent
unit, and no line break or dedent precedes it. -/
theorem c3_indent_depth_broken :
    format ("\x7b\"a\":\"\\n\",\"b\":1\x7d".toList) [spaceC] 1 =
      "\x7b\n \"a\": \"\\n\",\"b\":1\x7d".toList := by decide

/-- C4, counterexample: re-formatting is NOT byte-identical for every
valid parameter triple.  With the (valid, non-whitespace) indent token
`"a"`, formatting `{"k":1}` once yields `{\na"k":a1\n}`, whose
inserted `a` characters survive the whitespace strip of the second
pass and are re-indented, so the second pass differs. -/
theorem c4_not_idempotent_nonws_tab :
    format (format ("\x7b\"k\":1\x7d".toList) ['a'] 1) ['a'] 1 ≠
      format ("\x7b\"k\":1\x7d".toList) ['a'] 1 := by decide

/-- C8, counterexample: with two overlapping calls the claim fails.
Call 1 overwrites the single `onmessage` slot before call 0's response
arrives, so the response to request 0 settles call 1's future and call
0's future is never settled. -/
theorem c8_overlap_misdelivery :
    dLookup 0 (dRun [DEvent.call 0, DEvent.call 1,
        DEvent.respond, DEvent.respond]).settled = none ∧
      dLookup 1 (dRun [DEvent.call 0, DEvent.call 1,
        DEvent.respond, DEvent.respond]).settled = some 0 := by
  decide

/-- C7: throughout every formatting call, on every input string, the
indent ledger is at every step a whole-number repetition of `tab`;
an iteration that opens a non-empty container turns `tab^k` into
`tab^(k+1)` (appends exactly one copy of `tab`), and an iteration
that closes a non-empty container while at least one container is
open turns `tab^k` into `tab^(k-1)` (removes exactly one
tab-length). -/
theorem c7_ledger_invariant (s tab : List Char) (w i : Nat) :
    ∃ k, (stateAt s tab w i).tabDepth = repeatL tab k ∧
      (isOpenNonEmpty s i (stateAt s tab w i) →
        (stateAt s tab w (i + 1)).tabDepth = repeatL tab (k + 1)) ∧
      (isCloseNonEmpty s i (stateAt s tab w i) → 1 ≤ k →
        (stateAt s tab w (i + 1)).tabDepth = repeatL tab (k - 1)) := by
  obtain ⟨k, hk⟩ := tabDepth_repeat s tab w i
  refine ⟨k, hk, fun h => ?_, fun h _ => ?_⟩
  · rw [stateAt_succ, step_open_tabDepth s tab w i _ h, hk, repeatL_succ_right]
  · rw [stateAt_succ, step_close_tabDepth s tab w i _ h, hk, jsReplaceEmpty_repeat]

/-- Witness for C7 at the input `[1,2]` with a one-space tab, at the
opening iteration: the ledger after the opening bracket is exactly one
copy of `tab`. -/
theorem c7_ledger_invariant_witness :
    (stateAt ("[1,2]".toList) [spaceC] 1 1).tabDepth = repeatL [spaceC] 1 := by
  obtain ⟨k, hk, hopen, _⟩ :=
    c7_ledger_invariant ("[1,2]".toList) [spaceC] 1 0
  have h0 : isOpenNonEmpty ("[1,2]".toList) 0
      (stateAt ("[1,2]".toList) [spaceC] 1 0) := by
    refine ⟨rfl, Or.inr (by decide), by decide⟩
  have hk0 : k = 0 := by
    have hemp : repeatL [spaceC] k = [] := hk.symm
    cases k with
    | zero => rfl
    | succ n => simp [repeatL] at hemp
  subst hk0
  exact hopen h0

/-- C9: for every string `json`, every string `tab`, and every integer
`codesLineLength ≥ 1`, validation passes and the call posts exactly
one success result carrying the formatted string: the formatter never
fails, regardless of whether the input is well-formed JSON.  (In this
embedding the scan is the fold `stateAt` over `List.range`, i.e. the
cursor increases strictly by one per iteration and the loop is bounded
by the stripped input's length, so termination is structural.) -/
theorem c9_total_success (j t : List Char) (n : Nat) (h : 1 ≤ n) :
    workerFunction [JSVal.str j, JSVal.str t, JSVal.num (n : Rat)] =
      Posted.success (format j t n) := by
  have hfloor : ((n : Rat)).floor = (n : Int) := by
    simp [Rat.floor]
  have hnn : (0 : Rat) ≤ (n : Rat) := by positivity
  have hpos : ¬((n : Rat) ≤ 0) := by
    simp only [not_le]
    exact_mod_cast Nat.lt_of_lt_of_le Nat.zero_lt_one h
  simp [workerFunction, orDefault, isStringV, isNumberV, strOf, numOf,
    natOf, jsParseInt, hfloor, hnn, hpos]

/-- Witness for C9 at `json = "1"`, `tab = " "`, `codesLineLength = 1`. -/
theorem c9_total_success_witness :
    workerFunction [JSVal.str ['1'], JSVal.str [spaceC], JSVal.num (1 : Rat)] =
      Posted.success (format ['1'] [spaceC] 1) := by
  have h := c9_total_success ['1'] [spaceC] 1 (Nat.le_refl 1)
  simpa using h

/-- C4, amended: re-formatting is byte-identical whenever the indent
token consists of whitespace characters (as the one-space default and
every JSON whitespace token do): then every character the formatter
inserts is whitespace, the second pass's strip recovers exactly the
first pass's stripped input, and the two outputs agree.  For an indent
token containing non-whitespace the equation can fail
(`c4_not_idempotent_nonws_tab`). -/
theorem c4_idempotent_ws_tab (x tab : List Char) (w : Nat) (hw : 1 ≤ w)
    (htab : ∀ c ∈ tab, isWS c = true) :
    format (format x tab w) tab w = format x tab w := by
  show (runScan (stripWS ((runScan (stripWS x) tab w).out)) tab w).out = _
  have hs : ∀ c ∈ stripWS x, isWS c = false := by
    intro c hc
    have h := List.of_mem_filter hc
    simpa using h
  rw [stripWS_runScan (stripWS x) tab w hs htab]
  rfl

/-- Witness for the amended C4 at `x = {"k":1}`, a one-space tab and
wrap width 1. -/
theorem c4_idempotent_ws_tab_witness :
    format (format ("\x7b\"k\":1\x7d".toList) [spaceC] 1) [spaceC] 1 =
      format ("\x7b\"k\":1\x7d".toList) [spaceC] 1 :=
  c4_idempotent_ws_tab ("\x7b\"k\":1\x7d".toList) [spaceC] 1
    (Nat.le_refl 1) (by decide)

/-- C8, amended: responses are delivered in posted order to whatever
handler is currently installed, so correct correlation holds exactly
for non-overlapping calls: when every call's response is delivered
before the next call is posted (a strictly sequential trace of
distinct call ids), each caller's future is settled with the response
to its own request. -/
theorem c8_sequential_correlation (ids : List Nat) (h : ids.Nodup)
    (i : Nat) (hi : i ∈ ids) :
    dLookup i (dRun (seqCalls ids)).settled = some i :=
  seq_correct ids ⟨none, [], []⟩ rfl h (fun _ _ => rfl) i hi

/-- Witness for the amended C8 at two sequential calls `0` then `1`:
caller `1` is settled with its own response. -/
theorem c8_sequential_correlation_witness :
    dLookup 1 (dRun (seqCalls [0, 1])).settled = some 1 :=
  c8_sequential_correlation [0, 1] (by decide) 1 (by decide)

/-- C10: calling the operation with the empty string as `json` is not
a validation error: the type checks pass, the scan loop runs zero
iterations, and the worker posts a success carrying the empty
string. -/
theorem c10_empty_string_ok :
    workerFunction [JSVal.str []] = Posted.success [] := by decide

theorem stateAt_zero (s tab : List Char) (w : Nat) :
    stateAt s tab w 0 = initSt := rfl

/-! ## The validator's exact rejection condition -/

/-- The rejection condition stated by the claim: `json` absent or not
a string; `tab` explicitly supplied (a non-`undefined` value is
present at position 1) and not a string; or `codesLineLength`
explicitly supplied and not a number, with a fractional part, or not
strictly positive. -/
def rejectCond (data : List JSVal) : Prop :=
  (data.length = 0 ∨ isStringV (data.getD 0 JSVal.undef) = false) ∨
    (data.getD 1 JSVal.undef ≠ JSVal.undef ∧
      isStringV (data.getD 1 JSVal.undef) = false) ∨
    (data.getD 2 JSVal.undef ≠ JSVal.undef ∧
      (isNumberV (data.getD 2 JSVal.undef) = false ∨
        jsParseInt (numOf (data.getD 2 JSVal.undef)) ≠
          numOf (data.getD 2 JSVal.undef) ∨
        numOf (data.getD 2 JSVal.undef) ≤ 0))

theorem orDefault_cases (v d : JSVal) :
    (v = JSVal.undef ∧ orDefault v d = d) ∨
      (v ≠ JSVal.undef ∧ orDefault v d = v) := by
  by_cases h : v = JSVal.undef
  · exact Or.inl ⟨h, by simp [orDefault, h]⟩
  · exact Or.inr ⟨h, by simp [orDefault, h]⟩

theorem len_of_getD_ne (data : List JSVal) (i : Nat)
    (h : data.getD i JSVal.undef ≠ JSVal.undef) : i + 1 ≤ data.length := by
  by_contra hlen
  exact h (List.getD_eq_default _ _ (by omega))

/-- The worker rejects with a `"Type Error"` failure exactly on
`rejectCond`, and otherwise posts the formatted text with the
defaulted parameters. -/
theorem worker_cases (data : List JSVal) :
    ((∃ m, workerFunction data = Posted.failure m "Type Error") ↔
      rejectCond data) ∧
    (¬rejectCond data → workerFunction data =
      Posted.success (format (strOf (data.getD 0 JSVal.undef))
        (strOf (orDefault (data.getD 1 JSVal.undef) (JSVal.str [spaceC])))
        (natOf (orDefault (data.getD 2 JSVal.undef) (JSVal.num 1))))) := by
  have hone : jsParseInt (numOf (JSVal.num 1)) = numOf (JSVal.num 1) := by
    decide
  have honepos : ¬(numOf (JSVal.num 1) ≤ 0) := by decide
  simp only [workerFunction]
  split_ifs with h1 h2 h3 h4 h5 h6
  · have hrc : rejectCond data := Or.inl (Or.inl h1)
    exact ⟨⟨fun _ => hrc, fun _ => ⟨_, rfl⟩⟩, fun hno => absurd hrc hno⟩
  · have hrc : rejectCond data := Or.inl (Or.inr h2)
    exact ⟨⟨fun _ => hrc, fun _ => ⟨_, rfl⟩⟩, fun hno => absurd hrc hno⟩
  · have hrc : rejectCond data := by
      rcases orDefault_cases (data.getD 1 JSVal.undef) (JSVal.str [spaceC])
        with ⟨h, he⟩ | ⟨h, he⟩
      · rw [he] at h3
        exact absurd h3.2 (by simp [isStringV])
      · rw [he] at h3
        exact Or.inr (Or.inl ⟨h, h3.2⟩)
    exact ⟨⟨fun _ => hrc, fun _ => ⟨_, rfl⟩⟩, fun hno => absurd hrc hno⟩
  · have hrc : rejectCond data := by
      rcases orDefault_cases (data.getD 2 JSVal.undef) (JSVal.num 1)
        with ⟨h, he⟩ | ⟨h, he⟩
      · rw [he] at h4
        exact absurd h4.2 (by simp [isNumberV])
      · rw [he] at h4
        exact Or.inr (Or.inr ⟨h, Or.inl h4.2⟩)
    exact ⟨⟨fun _ => hrc, fun _ => ⟨_, rfl⟩⟩, fun hno => absurd hrc hno⟩
  · have hrc : rejectCond data := by
      rcases orDefault_cases (data.getD 2 JSVal.undef) (JSVal.num 1)
        with ⟨h, he⟩ | ⟨h, he⟩
      · rw [he] at h5
        exact absurd hone h5.2.2
      · rw [he] at h5
        exact Or.inr (Or.inr ⟨h, Or.inr (Or.inl h5.2.2)⟩)
    exact ⟨⟨fun _ => hrc, fun _ => ⟨_, rfl⟩⟩, fun hno => absurd hrc hno⟩
  · have hrc : rejectCond data := by
      rcases orDefault_cases (data.getD 2 JSVal.undef) (JSVal.num 1)
        with ⟨h, he⟩ | ⟨h, he⟩
      · rw [he] at h6
        exact absurd h6.2.2.2 honepos
      · rw [he] at h6
        exact Or.inr (Or.inr ⟨h, Or.inr (Or.inr h6.2.2.2)⟩)
    exact ⟨⟨fun _ => hrc, fun _ => ⟨_, rfl⟩⟩, fun hno => absurd hrc hno⟩
  · have hnrc : ¬rejectCond data := by
      intro hrc
      rcases hrc with h | ⟨hne, hf⟩ | ⟨hne, hd⟩
      · rcases h with h | h
        · exact h1 h
        · exact h2 h
      · have hlen : 2 ≤ data.length := len_of_getD_ne data 1 hne
        rcases orDefault_cases (data.getD 1 JSVal.undef) (JSVal.str [spaceC])
          with ⟨h, _⟩ | ⟨_, he⟩
        · exact hne h
        · exact h3 ⟨hlen, by rw [he]; exact hf⟩
      · have hlen : 3 ≤ data.length := len_of_getD_ne data 2 hne
        rcases orDefault_cases (data.getD 2 JSVal.undef) (JSVal.num 1)
          with ⟨h, _⟩ | ⟨_, he⟩
        · exact hne h
        · rcases hd with hd | hd | hd
          · exact h4 ⟨hlen, by rw [he]; exact hd⟩
          · by_cases hnum : isNumberV (data.getD 2 JSVal.undef) = true
            · exact h5 ⟨hlen, by rw [he]; exact hnum, by rw [he]; exact hd⟩
            · refine h4 ⟨hlen, ?_⟩
              rw [he]
              cases hv : isNumberV (data.getD 2 JSVal.undef) with
              | true => exact absurd hv hnum
              | false => rfl
          · by_cases hnum : isNumberV (data.getD 2 JSVal.undef) = true
            · by_cases hpi : jsParseInt (numOf (data.getD 2 JSVal.undef)) =
                  numOf (data.getD 2 JSVal.undef)
              · exact h6 ⟨hlen, by rw [he]; exact hnum,
                  by rw [he]; exact hpi, by rw [he]; exact hd⟩
              · exact h5 ⟨hlen, by rw [he]; exact hnum, by rw [he]; exact hpi⟩
            · refine h4 ⟨hlen, ?_⟩
              rw [he]
              cases hv : isNumberV (data.getD 2 JSVal.undef) with
              | true => exact absurd hv hnum
              | false => rfl
    refine ⟨⟨fun hex => ?_, fun hrc => absurd hrc hnrc⟩, fun _ => rfl⟩
    obtain ⟨m, hm⟩ := hex
    simp at hm

/-- Closing a code array over a non-matching previous character:
dedent, emit the closer, clear the code-array flag. -/
theorem step_close_code (s tab : List Char) (w i : Nat) (st : St)
    (h1 : st.inString = false) (h2 : st.inCodeArray = true)
    (hc : chAt s i = rbrack)
    (hp1 : ¬prevAt s i = some lbrace) (hp2 : ¬prevAt s i = some lbrack) :
    step s tab w i st =
      { st with inCodeArray := false,
                tabDepth := jsReplaceEmpty st.tabDepth tab,
                out := st.out ++ [nlC] ++ jsReplaceEmpty st.tabDepth tab ++
                  [chAt s i] } := by
  simp +decide [step, h1, h2, hc, hp1, hp2]

/-- C6: the validator rejects with error kind "Type Error" exactly
when `json` is absent or not a string, `tab` is explicitly supplied
(non-`undefined`) and not a string, or `codesLineLength` is explicitly
supplied and not a number, fractional, or not strictly positive;
otherwise formatting proceeds with `tab` defaulting to one space and
`codesLineLength` defaulting to 1; unset `codesLineLength` behaves
identically to `1`; and the three `codesLineLength` violations carry
pairwise distinct messages (wrong type / `<float>` / `<(int<=0)>`). -/
theorem c6_validator_exact (data : List JSVal) :
    ((∃ m, workerFunction data = Posted.failure m "Type Error") ↔
      rejectCond data) ∧
    (¬rejectCond data → workerFunction data =
      Posted.success (format (strOf (data.getD 0 JSVal.undef))
        (strOf (orDefault (data.getD 1 JSVal.undef) (JSVal.str [spaceC])))
        (natOf (orDefault (data.getD 2 JSVal.undef) (JSVal.num 1))))) ∧
    (∀ j : List Char, workerFunction [JSVal.str j] =
      Posted.success (format j [spaceC] 1)) ∧
    (∀ a b : JSVal, workerFunction [a, b] =
      workerFunction [a, b, JSVal.num 1]) ∧
    (∀ v : JSVal, isNumberV v = false →
      msgCll (jsTypeof v) ≠ msgCll "float" ∧
      msgCll (jsTypeof v) ≠ msgCll "(int<=0)" ∧
      msgCll "float" ≠ msgCll "(int<=0)") := by
  refine ⟨(worker_cases data).1, (worker_cases data).2, ?_,
    fun a b => worker_unset_cll a b, ?_⟩
  · intro j
    simp +decide [workerFunction, orDefault, isStringV, strOf, natOf,
      Rat.floor]
  · intro v hv
    cases v with
    | num q => simp [isNumberV] at hv
    | undef => exact ⟨by decide, by decide, by decide⟩
    | str s =>
      simp only [jsTypeof]
      exact ⟨by decide, by decide, by decide⟩
    | boolv b =>
      simp only [jsTypeof]
      exact ⟨by decide, by decide, by decide⟩
    | objv => exact ⟨by decide, by decide, by decide⟩

/-- Witness for C6: a numeric `json` argument is rejected with a
"Type Error" failure, and a well-typed single-argument call succeeds
with the defaults. -/
theorem c6_validator_exact_witness :
    (∃ m, workerFunction [JSVal.num 3] = Posted.failure m "Type Error") ∧
      workerFunction [JSVal.str ['1']] =
        Posted.success (format ['1'] [spaceC] 1) :=
  ⟨(c6_validator_exact [JSVal.num 3]).1.mpr (Or.inl (Or.inr (by decide))),
   (c6_validator_exact [JSVal.str ['1']]).2.2.1 ['1']⟩

/-- C5: a pure-numeric array of `k ≥ 1` elements formatted at wrap
width `w ≥ 1` produces output whose newline count is `⌈k/w⌉ + 1`: one
break after the opening bracket, `⌈k/w⌉ - 1` wrap breaks inside the
body, and one break before the closing bracket — so the body occupies
exactly `⌈k/w⌉ = (k + w - 1)/w` break lines beyond the open/close
lines.  Additionally, wrap width 1 behaves exactly like
`codesLineLength` unset, because the destructuring default makes an
unset third argument equal to `1` before any formatting. -/
theorem c5_numeric_wrap_lines (elems : List (List Char)) (tab : List Char)
    (w : Nat) (hw : 1 ≤ w) (hne : elems ≠ [])
    (helems : ∀ e ∈ elems, e ≠ [] ∧ ∀ c ∈ e, numericChar c = true)
    (htabnl : tab.count nlC = 0) :
    (format (lbrack :: (joinSep elems ++ [rbrack])) tab w).count nlC =
      (elems.length + w - 1) / w + 1 ∧
      (∀ a b : JSVal, workerFunction [a, b] =
        workerFunction [a, b, JSVal.num 1]) := by
  refine ⟨?_, fun a b => worker_unset_cll a b⟩
  obtain ⟨e1, rest, rfl⟩ : ∃ e1 rest, elems = e1 :: rest := by
    cases elems with
    | nil => cases hne rfl
    | cons a b => exact ⟨a, b, rfl⟩
  obtain ⟨he1ne, he1num⟩ := helems e1 (List.mem_cons_self _ _)
  obtain ⟨c0, cs0, rfl⟩ : ∃ c0 cs0, e1 = c0 :: cs0 := by
    cases e1 with
    | nil => cases he1ne rfl
    | cons a b => exact ⟨a, b, rfl⟩
  obtain ⟨tl, htl⟩ := joinSep_head c0 cs0 rest
  set body := joinSep ((c0 :: cs0) :: rest) with hbody
  set s : List Char := lbrack :: (body ++ [rbrack]) with hs
  have hw0 : 0 < w := hw
  have hchars : ∀ c ∈ body, c = commaC ∨ numericChar c = true :=
    joinSep_chars _ (fun e he => (helems e he).2)
  have hnorb : rbrack ∉ body := by
    intro hm
    rcases hchars rbrack hm with h | h
    · exact absurd h (by decide)
    · exact (numericChar_spec _ h).2.2.2.2.1 rfl
  have hlen1 : 1 ≤ body.length := by rw [htl]; simp
  have hnows : ∀ c ∈ s, isWS c = false := by
    intro c hc
    rcases List.mem_cons.mp hc with rfl | hc2
    · decide
    · rcases List.mem_append.mp hc2 with hm | hm
      · rcases hchars c hm with rfl | hn
        · decide
        · exact (numericChar_spec c hn).2.2.2.2.2.2.2
      · rw [List.mem_singleton] at hm
        subst hm
        decide
  have hstrip : stripWS s = s := stripWS_id_of s hnows
  have hslen : s.length = body.length + 2 := by simp [hs]
  have hsform : s = (lbrack :: body) ++ rbrack :: [] := by simp [hs]
  have hbd0 : body.getD 0 spaceC = c0 := by rw [htl]; rfl
  have hch0 : chAt s 0 = lbrack := rfl
  have hc0num : numericChar c0 = true := he1num c0 (List.mem_cons_self _ _)
  have hpeek0 : peekAt s 0 = some c0 := by
    simp only [peekAt, hslen]
    rw [if_pos (by omega)]
    show some ((body ++ [rbrack]).getD 0 spaceC) = some c0
    rw [getD_append_left _ _ body 0 hlen1, hbd0]
  have hnm1 : rbrack ∉ lbrack :: body := by
    intro hm
    rcases List.mem_cons.mp hm with h | h
    · exact absurd h (by decide)
    · exact hnorb h
  have hidx : idxFrom rbrack s = some (body.length + 1) := by
    rw [hsform, idxFrom_append rbrack (lbrack :: body) [] hnm1]
    simp
  have hsform2 : s = (lbrack :: body) ++ [rbrack] := rfl
  have hidx0 : indexOfFrom s rbrack 0 = some (body.length + 1) := by
    simp [indexOfFrom, hidx]
  have hscan : arrayScanChars s 0 = lbrack :: body := by
    simp only [arrayScanChars, hidx0, List.drop_zero, Nat.sub_zero]
    rw [hsform2]
    have hlb : body.length + 1 = (lbrack :: body).length := by simp
    rw [hlb, List.take_left]
  have hnc : nonCodeMatch (arrayScanChars s 0) = false := by
    rw [hscan]
    exact nonCodeMatch_no_rbrack _ hnm1
  have hwne : w ≠ 0 := by omega
  have hr1 : ¬c0 = rbrace := (numericChar_spec c0 hc0num).2.2.2.1
  have hr2 : ¬c0 = rbrack := (numericChar_spec c0 hc0num).2.2.2.2.1
  have hopen : stateAt s tab w 1 =
      ⟨false, true, 0, false, tab, lbrack :: nlC :: tab⟩ := by
    have h01 : (1 : Nat) = 0 + 1 := rfl
    rw [h01, stateAt_succ, stateAt_zero]
    simp +decide [step, hch0, hpeek0, hnc, hr1, hr2, hwne, initSt]
  have hpos : ∀ j, j < body.length → chAt s (1 + j) = body.getD j spaceC := by
    intro j hj
    show s.getD (1 + j) spaceC = _
    have he : 1 + j = j + 1 := by omega
    rw [he]
    show (body ++ [rbrack]).getD j spaceC = body.getD j spaceC
    exact getD_append_left _ _ body j hj
  obtain ⟨g1, g2, g3, g4, g5⟩ := seg_scan s tab w htabnl body 1
    ⟨false, true, 0, false, tab, lbrack :: nlC :: tab⟩
    hpos hchars rfl rfl htabnl hw0
  have hmid : stateAt s tab w (1 + body.length) =
      runFrom s tab w 1 body.length
        ⟨false, true, 0, false, tab, lbrack :: nlC :: tab⟩ := by
    rw [stateAt_add s tab w 1 body.length, hopen]
  have hchend : chAt s (1 + body.length) = rbrack := by
    show s.getD (1 + body.length) spaceC = rbrack
    have he : 1 + body.length = body.length + 1 := by omega
    rw [he]
    show (body ++ [rbrack]).getD body.length spaceC = rbrack
    rw [getD_append_length]
    rfl
  have hlastmem : body.getD (body.length - 1) spaceC ∈ body := by
    have hlt : body.length - 1 < body.length := by omega
    rw [List.getD_eq_getElem _ _ hlt]
    exact List.getElem_mem hlt
  have hprev : prevAt s (1 + body.length) =
      some (body.getD (body.length - 1) spaceC) := by
    simp only [prevAt]
    rw [if_pos (by omega)]
    have he : 1 + body.length - 1 = body.length := by omega
    rw [he]
    have h2 : body.length = (body.length - 1) + 1 := by omega
    rw [h2]
    show some ((body ++ [rbrack]).getD (body.length - 1 + 1 - 1) spaceC) = _
    rw [getD_append_left _ _ body _ (by omega)]
  have hlast1 : ¬body.getD (body.length - 1) spaceC = lbrace := by
    rcases hchars _ hlastmem with h | h
    · rw [h]; decide
    · exact (numericChar_spec _ h).2.1
  have hlast2 : ¬body.getD (body.length - 1) spaceC = lbrack := by
    rcases hchars _ hlastmem with h | h
    · rw [h]; decide
    · exact (numericChar_spec _ h).2.2.1
  have hp1 : ¬prevAt s (1 + body.length) = some lbrace := by
    rw [hprev]
    intro hsome
    exact hlast1 (Option.some_injective _ hsome)
  have hp2 : ¬prevAt s (1 + body.length) = some lbrack := by
    rw [hprev]
    intro hsome
    exact hlast2 (Option.some_injective _ hsome)
  have hfin : runScan s tab w =
      step s tab w (1 + body.length) (stateAt s tab w (1 + body.length)) := by
    rw [runScan, hslen]
    have he : body.length + 2 = (1 + body.length) + 1 := by omega
    rw [he, stateAt_succ]
  have hMin : (stateAt s tab w (1 + body.length)).inString = false := by
    rw [hmid]; exact g1
  have hMcode : (stateAt s tab w (1 + body.length)).inCodeArray = true := by
    rw [hmid]; exact g2
  have hclose := step_close_code s tab w (1 + body.length)
    (stateAt s tab w (1 + body.length)) hMin hMcode hchend hp1 hp2
  have hcommas : body.count commaC = rest.length := by
    have h := joinSep_count ((c0 :: cs0) :: rest)
      (fun e he c hcm =>
        (numericChar_spec c ((helems e he).2 c hcm)).2.2.2.2.2.1)
      (List.cons_ne_nil _ _)
    simpa using h
  have hout1 : (List.count nlC (lbrack :: nlC :: tab)) = 1 := by
    simp +decide [List.count_cons, htabnl]
  show (format s tab w).count nlC = _
  have hfmt : format s tab w =
      (step s tab w (1 + body.length)
        (stateAt s tab w (1 + body.length))).out := by
    show (runScan (stripWS s) tab w).out = _
    rw [hstrip, hfin]
  rw [hfmt, hclose, hchend]
  simp only [List.count_append]
  have hcnl : List.count nlC [nlC] = 1 := by decide
  have hrbnl : List.count nlC [rbrack] = 0 := by decide
  have hrepnl : List.count nlC
      (jsReplaceEmpty (stateAt s tab w (1 + body.length)).tabDepth tab) = 0 := by
    have htd : (stateAt s tab w (1 + body.length)).tabDepth = tab := by
      rw [hmid]; exact g3
    rw [htd, jsReplaceEmpty_self]
    rfl
  have houtc : List.count nlC (stateAt s tab w (1 + body.length)).out =
      1 + rest.length / w := by
    rw [hmid, g5]
    simp only [hout1, hcommas, Nat.zero_add]
  rw [hcnl, hrbnl, hrepnl, houtc]
  have hlensimp : ((c0 :: cs0) :: rest).length = rest.length + 1 := by simp
  rw [hlensimp]
  have hceil : (rest.length + 1 + w - 1) / w = rest.length / w + 1 := by
    have he : rest.length + 1 + w - 1 = rest.length + w := by omega
    rw [he, Nat.add_div_right _ hw0]
  rw [hceil]
  ring

/-- Witness for C5 at the three-element numeric array `[1,2,3]`,
`tab = " "`, wrap width 2: the output has `⌈3/2⌉ + 1 = 3` newlines,
and the concrete unset-versus-1 equation holds at
`json = "[1]", tab = " "`. -/
theorem c5_numeric_wrap_lines_witness :
    (format (lbrack :: (joinSep [['1'], ['2'], ['3']] ++ [rbrack]))
        [spaceC] 2).count nlC = (3 + 2 - 1) / 2 + 1 ∧
      workerFunction [JSVal.str ('[' :: '1' :: [']']), JSVal.str [spaceC]] =
        workerFunction [JSVal.str ('[' :: '1' :: [']']), JSVal.str [spaceC],
          JSVal.num 1] := by
  have h := c5_numeric_wrap_lines [['1'], ['2'], ['3']] [spaceC] 2
    (by decide) (by decide) (by decide) (by decide)
  exact ⟨by simpa using h.1,
    h.2 (JSVal.str ('[' :: '1' :: [']'])) (JSVal.str [spaceC])⟩

end JSONSlick
